import Mathlib

/-!
Verification of the `ascii_games` terminal quiz engine (`main_single.py`).

The Python source is shallowly embedded: text is `List Char`, window
output is accumulated explicitly, the timed key read is driven by a
script of key codes (`-1` is the curses timeout sentinel), and Python
exceptions are `Except` errors.
-/

namespace AsciiGames

/-- Model of Python `str.splitlines(keepends=True)` restricted to the
newline character `\n` (the only line break produced by this program):
auxiliary accumulator form. `cur` holds the (reversed) characters of the
line being scanned. -/
def slkAux (cur : List Char) : List Char → List (List Char)
  | [] => if cur = [] then [] else [cur.reverse]
  | c :: rest =>
    if c = '\n' then (cur.reverse ++ ['\n']) :: slkAux [] rest
    else slkAux (c :: cur) rest

/-- Model of Python `str.splitlines(keepends=True)` (newline-only). -/
def splitlinesKeepends (s : List Char) : List (List Char) := slkAux [] s

/-- Model of Python `str.splitlines()` (no keepends): the keepends split
with each trailing newline removed. -/
def splitlinesNoEnds (s : List Char) : List (List Char) :=
  (splitlinesKeepends s).map
    (fun l => if l.getLast? = some '\n' then l.dropLast else l)

theorem slkAux_join (s : List Char) :
    ∀ cur, (slkAux cur s).flatten = cur.reverse ++ s := by
  induction s with
  | nil =>
    intro cur
    by_cases h : cur = [] <;> simp [slkAux, h]
  | cons c rest ih =>
    intro cur
    by_cases h : c = '\n' <;> simp [slkAux, h, ih]

/-- Splitting with keepends loses nothing: joining the lines restores
the original text. -/
theorem splitlinesKeepends_join (s : List Char) :
    (splitlinesKeepends s).flatten = s := by
  simpa using slkAux_join s []

theorem slkAux_ne_nil (s : List Char) :
    ∀ cur l, l ∈ slkAux cur s → l ≠ [] := by
  induction s with
  | nil =>
    intro cur l hl
    by_cases h : cur = []
    · simp [slkAux, h] at hl
    · simp [slkAux, h] at hl
      subst hl
      simpa using h
  | cons c rest ih =>
    intro cur l hl
    by_cases h : c = '\n'
    · simp [slkAux, h] at hl
      rcases hl with hl | hl
      · subst hl; simp
      · exact ih [] l hl
    · simp [slkAux, h] at hl
      exact ih (c :: cur) l hl

/-- Every line produced by the keepends split is nonempty (mirrors the
fact that Python `splitlines(keepends=True)` never yields an empty
string). -/
theorem splitlinesKeepends_ne_nil (s : List Char) :
    ∀ l ∈ splitlinesKeepends s, l ≠ [] :=
  fun l hl => slkAux_ne_nil s [] l hl

/-- Model of Python `str.lower` on a single character code (ASCII). -/
def toLowerC (c : Nat) : Nat := if 65 ≤ c ∧ c ≤ 90 then c + 32 else c

/-- Model of Python `str.upper` on a single character code (ASCII). -/
def toUpperC (c : Nat) : Nat := if 97 ≤ c ∧ c ≤ 122 then c - 32 else c

/-- Model of Python list indexing `l[i]`: negative indices count from
the end, out-of-range indexing raises `IndexError` (modelled as
`Option.none`). -/
def pyGet (l : List α) (i : Int) : Option α :=
  if 0 ≤ i then l.get? i.toNat
  else if -(l.length : Int) ≤ i then l.get? (l.length + i).toNat
  else Option.none

theorem pyGet_mem (l : List α) (i : Int) (a : α) (h : pyGet l i = some a) :
    a ∈ l := by
  unfold pyGet at h
  split at h
  · exact List.get?_mem h
  · split at h
    · exact List.get?_mem h
    · exact absurd h (by simp)

/-! ## C10: `fade_in` and its division by zero -/

/-- Drawable cells computed by `fade_in` (source lines 437-445): the
dict of visible characters keyed by screen coordinates, keeping a
character exactly when it is not a space and its coordinates lie inside
the window.  The scan order stands in for the shuffled draw order,
which is irrelevant to the properties checked here. -/
def fadeChars (text : List Char) (maxRow maxCol : Nat) :
    List ((Nat × Nat) × Char) :=
  ((splitlinesNoEnds text).enum.map (fun yl =>
    yl.2.enum.filterMap (fun xc =>
      if xc.2 ≠ ' ' ∧ yl.1 < maxRow ∧ xc.1 < maxCol
      then some ((yl.1, xc.1), xc.2) else Option.none))).flatten

/-- Model of `fade_in` (source lines 425-473) up to the per-cell delay:
the source computes `spf = duration / (5 * len(coords))`, which raises
`ZeroDivisionError` when there is no drawable cell.  Timing is exact
rational arithmetic here; on success the per-cell delay and the cells
to draw are returned. -/
def fade_in (text : List Char) (maxRow maxCol : Nat) (duration : ℚ) :
    Except String (ℚ × List ((Nat × Nat) × Char)) :=
  let chars := fadeChars text maxRow maxCol
  if chars.length = 0 then Except.error "ZeroDivisionError"
  else Except.ok (duration / (5 * chars.length), chars)

/-- The condition of claim C10: every character of the text that lies
inside the window bounds is a blank (space). -/
def allBlankInWindow (text : List Char) (maxRow maxCol : Nat) : Bool :=
  (splitlinesNoEnds text).enum.all (fun yl =>
    yl.2.enum.all (fun xc =>
      decide (yl.1 < maxRow → xc.1 < maxCol → xc.2 = ' ')))

theorem fadeChars_eq_nil_iff (text : List Char) (maxRow maxCol : Nat) :
    fadeChars text maxRow maxCol = []
      ↔ allBlankInWindow text maxRow maxCol = true := by
  simp only [fadeChars, allBlankInWindow, List.flatten_eq_nil_iff,
    List.mem_map, List.all_eq_true, decide_eq_true_eq,
    forall_exists_index, and_imp, forall_apply_eq_imp_iff₂,
    List.filterMap_eq_nil_iff]
  constructor
  · intro h yl hyl xc hxc hr hc
    have hx := h yl hyl xc hxc
    by_contra hne
    simp [hne, hr, hc] at hx
  · intro h yl hyl xc hxc
    by_cases hne : xc.2 = ' '
    · simp [hne]
    · by_cases hr : yl.1 < maxRow
      · by_cases hc : xc.1 < maxCol
        · exact absurd (h yl hyl xc hxc hr hc) hne
        · simp [hc]
      · simp [hr]

/-- **C10.** When every character inside the window bounds is blank (the
set of drawable cells is empty), `fade_in` raises a division-by-zero
error computing `duration / (5 * cellCount)`; it therefore only
succeeds on text with at least one non-blank character inside the
window. -/
theorem fade_in_division_by_zero (text : List Char) (maxRow maxCol : Nat)
    (duration : ℚ) (h : allBlankInWindow text maxRow maxCol = true) :
    fade_in text maxRow maxCol duration = Except.error "ZeroDivisionError"
    ∧ (fade_in text maxRow maxCol duration).isOk = false := by
  have hnil : fadeChars text maxRow maxCol = [] :=
    (fadeChars_eq_nil_iff text maxRow maxCol).mpr h
  constructor
  · simp [fade_in, hnil]
  · simp [fade_in, hnil, Except.isOk, Except.toBool]

/-- Witness for C10 at a concrete all-blank text. -/
theorem fade_in_division_by_zero_witness :
    allBlankInWindow ("  \n  ".toList) 5 5 = true
    ∧ fade_in ("  \n  ".toList) 5 5 2 = Except.error "ZeroDivisionError" :=
  ⟨by decide, (fade_in_division_by_zero ("  \n  ".toList) 5 5 2 (by decide)).1⟩

/-! ## C9: `set_cursor` -/

/-- Cursor styles accepted by `set_cursor`. -/
inductive CursorStyle
  | none | waiting | input | default
deriving DecidableEq

/-- Glyphs used by the cursor animation frames: `curses.ACS_BLOCK`,
`curses.ACS_S9` and the blank. -/
inductive CGlyph
  | acsBlock | acsS9 | space
deriving DecidableEq

/-- Python exceptions relevant to `set_cursor`. -/
inductive PyErr
  | nameError (localName : String)
deriving DecidableEq

/-- Model of `set_cursor` (source lines 342-390).  Locals that the
source never assigns before use are modelled as unassigned
(`Option.none`), and reading an unassigned local raises `NameError`:

* `row` is assigned nowhere in `set_cursor`, yet it is evaluated when
  building `args=(row, cursor_col, cursor_chars)` for the animation
  thread (the args tuple is evaluated left to right, so `row` raises
  first);
* `cursor_t` is assigned only in the animated branch, yet the final
  `return cursor_t` is reached from the `none` and `default` branches.

On success the result would be the cursor visibility paired with the
spawned animation task (saved column, 7 glyph frames). -/
def set_cursor (style : CursorStyle) (col : Nat) :
    Except PyErr (Nat × Option (Nat × List CGlyph)) :=
  let row : Option Nat := Option.none
  if style = CursorStyle.none then
    -- curses.curs_set(0); fall through to `return cursor_t`
    Except.error (PyErr.nameError "cursor_t")
  else if style ≠ CursorStyle.default then
    -- curses.curs_set(0); cursor_col = window.getyx()[1]
    let cursor_chars : Option (List CGlyph) :=
      if style = CursorStyle.waiting then
        some [CGlyph.acsBlock, CGlyph.acsBlock, CGlyph.acsBlock,
              CGlyph.acsBlock, CGlyph.space, CGlyph.space, CGlyph.space]
      else if style = CursorStyle.input then
        some [CGlyph.acsS9, CGlyph.acsS9, CGlyph.acsS9, CGlyph.acsS9,
              CGlyph.space, CGlyph.space, CGlyph.space]
      else Option.none
    match row with
    | Option.none => Except.error (PyErr.nameError "row")
    | Option.some _ =>
      Except.ok (0, Option.some (col, cursor_chars.getD []))
  else
    -- default: curses.curs_set(1); return cursor_t
    Except.error (PyErr.nameError "cursor_t")

/-- **C9** (code bug).  `set_cursor` never returns normally for any
style: the static styles `none` and `default` reach `return cursor_t`
with the local `cursor_t` unassigned, and the animated styles `waiting`
and `input` evaluate the unassigned local `row` when building the
thread arguments, so every call raises `NameError` instead of setting a
static cursor or spawning the 7-frame blink task. -/
theorem set_cursor_always_raises :
    set_cursor CursorStyle.none 0 = Except.error (PyErr.nameError "cursor_t")
    ∧ set_cursor CursorStyle.default 0
        = Except.error (PyErr.nameError "cursor_t")
    ∧ set_cursor CursorStyle.waiting 0
        = Except.error (PyErr.nameError "row")
    ∧ set_cursor CursorStyle.input 0
        = Except.error (PyErr.nameError "row") :=
  ⟨rfl, rfl, rfl, rfl⟩


/-! ## C6, C7: `center_text` -/

/-- The two modes of `center_text`.  The source compares the mode
string with `block` and treats every other mode string as `line`, so
these two constructors cover all behaviours. -/
inductive CenterMode
  | block | line
deriving DecidableEq

/-- The longest-line computation of the block branch of `center_text`
(source lines 229-233); line lengths include the kept trailing
newline. -/
def longestLineLength (lines : List (List Char)) : Nat :=
  lines.foldl (fun m line => max m line.length) 0

/-- Model of `center_text` (source lines 213-259).  `width` and
`height` are `Option Int` (`None` or a Python int); Python floor
division `//` is `Int.fdiv`, and the slice `line[-padding_size:]` is
`List.drop`.  The `else` arm of the per-line loop in `line` mode
assigns (rather than appends to) the accumulator, exactly as the
source does. -/
def center_text (text : List Char) (mode : CenterMode) (width : Option Int)
    (height : Option Int) : List Char :=
  let split_text := splitlinesKeepends text
  let centered_text :=
    match width with
    | some w =>
      match mode with
      | CenterMode.block =>
        let longest_length := longestLineLength split_text
        let padding_size : Int := Int.fdiv (w - longest_length) 2
        if 0 < padding_size then
          split_text.foldl
            (fun acc line =>
              acc ++ (List.replicate padding_size.toNat ' ' ++ line)) []
        else if padding_size < 0 then
          split_text.foldl
            (fun acc line => acc ++ line.drop (-padding_size).toNat) []
        else text
      | CenterMode.line =>
        split_text.foldl (fun acc line =>
          let padding_size : Int := Int.fdiv (w - line.length) 2
          if 0 < padding_size then
            acc ++ (List.replicate padding_size.toNat ' ' ++ line)
          else if padding_size < 0 then
            acc ++ line.drop (-padding_size).toNat
          else line) []
    | Option.none => text
  match height with
  | some h =>
    if (split_text.length : Int) < h then
      List.replicate ((h - split_text.length).toNat / 2) '\n' ++ centered_text
    else centered_text
  | Option.none => centered_text

theorem center_text_line_eval (text : List Char) (w : Int) :
    center_text text CenterMode.line (some w) Option.none
      = (splitlinesKeepends text).foldl (fun acc line =>
          if 0 < Int.fdiv (w - line.length) 2 then
            acc ++ (List.replicate (Int.fdiv (w - line.length) 2).toNat ' '
              ++ line)
          else if Int.fdiv (w - line.length) 2 < 0 then
            acc ++ line.drop (-(Int.fdiv (w - line.length) 2)).toNat
          else line) [] := rfl

theorem center_text_block_eval (text : List Char) (w : Int) :
    center_text text CenterMode.block (some w) Option.none
      = (if 0 < Int.fdiv
            (w - (longestLineLength (splitlinesKeepends text) : Int)) 2 then
          (splitlinesKeepends text).foldl (fun acc line =>
            acc ++ (List.replicate (Int.fdiv
              (w - (longestLineLength (splitlinesKeepends text) : Int))
                2).toNat ' ' ++ line)) []
        else if Int.fdiv
            (w - (longestLineLength (splitlinesKeepends text) : Int)) 2
              < 0 then
          (splitlinesKeepends text).foldl (fun acc line =>
            acc ++ line.drop (-(Int.fdiv
              (w - (longestLineLength (splitlinesKeepends text) : Int))
                2)).toNat) []
        else text) := rfl

theorem slkAux_no_newline (s : List Char) (hs : ('\n') ∉ s) :
    ∀ cur, slkAux cur s
      = if cur.reverse ++ s = [] then [] else [cur.reverse ++ s] := by
  induction s with
  | nil => intro cur; by_cases h : cur = [] <;> simp [slkAux, h]
  | cons c rest ih =>
    intro cur
    have hc : c ≠ '\n' := fun h => hs (h ▸ List.mem_cons_self c rest)
    have hrest : ('\n') ∉ rest := fun h => hs (List.mem_cons_of_mem c h)
    simp only [slkAux, if_neg hc, ih hrest]
    simp

/-- A nonempty text without newline splits into itself as a single
line. -/
theorem splitlinesKeepends_single (s : List Char) (hs : ('\n') ∉ s)
    (hne : s ≠ []) : splitlinesKeepends s = [s] := by
  unfold splitlinesKeepends
  rw [slkAux_no_newline s hs []]
  simp [hne]

theorem foldl_append_eq_flatten_map (f : α → List β) (l : List α) :
    ∀ acc : List β,
      l.foldl (fun a x => a ++ f x) acc = acc ++ (l.map f).flatten := by
  induction l with
  | nil => intro acc; simp
  | cons x xs ih => intro acc; simp [ih]

/-- **C6** (counterexample).  For `S = "ab"` and `W = 10` the output of
`center_text` in both `line` and `block` mode is `"    ab"`, of length
6, not `max (len S) W = 10`: the function pads only on the left by
half the deficit and never reaches the requested width. -/
theorem center_text_length_counterexample :
    center_text ("ab".toList) CenterMode.line (some 10) Option.none
      = "    ab".toList
    ∧ center_text ("ab".toList) CenterMode.block (some 10) Option.none
      = "    ab".toList
    ∧ ("    ab".toList).length = 6
    ∧ max ("ab".toList).length 10 = 10
    ∧ (6 : Nat) ≠ 10 := by decide

/-- **C6** (amended).  For a nonempty single-line `S` (no newline) and
width `W`: both modes agree, and if `W ≥ len S` the output is `S`
prefixed by `(W - len S) / 2` spaces — so its length is
`len S + (W - len S) / 2`, not `max (len S) W`; if `W < len S` the
output is a left-crop of `S` losing exactly `⌈(len S - W) / 2⌉`
characters (not `len S - W`). -/
theorem center_text_single_line (S : List Char) (W : Nat)
    (hnl : ('\n') ∉ S) (hne : S ≠ []) :
    (center_text S CenterMode.block (some (W : Int)) Option.none
      = center_text S CenterMode.line (some (W : Int)) Option.none)
    ∧ (S.length ≤ W →
        center_text S CenterMode.line (some (W : Int)) Option.none
          = List.replicate ((W - S.length) / 2) ' ' ++ S
        ∧ (center_text S CenterMode.line (some (W : Int)) Option.none).length
          = S.length + (W - S.length) / 2)
    ∧ (W < S.length →
        center_text S CenterMode.line (some (W : Int)) Option.none
          = S.drop ((S.length - W + 1) / 2)
        ∧ (S.length - W + 1) / 2 ≤ S.length) := by
  have hsplit : splitlinesKeepends S = [S] :=
    splitlinesKeepends_single S hnl hne
  have hfd : Int.fdiv ((W : Int) - (S.length : Int)) 2
      = ((W : Int) - (S.length : Int)) / 2 := Int.fdiv_eq_ediv _ (by norm_num)
  have hlong : longestLineLength [S] = S.length := by
    simp [longestLineLength]
  have hline : center_text S CenterMode.line (some (W : Int)) Option.none
      = (if 0 < Int.fdiv ((W : Int) - (S.length : Int)) 2 then
          List.replicate (Int.fdiv ((W : Int) - (S.length : Int)) 2).toNat ' '
            ++ S
        else if Int.fdiv ((W : Int) - (S.length : Int)) 2 < 0 then
          S.drop (-(Int.fdiv ((W : Int) - (S.length : Int)) 2)).toNat
        else S) := by
    rw [center_text_line_eval, hsplit]
    simp only [List.foldl_cons, List.foldl_nil, List.nil_append]
  have hblock : center_text S CenterMode.block (some (W : Int)) Option.none
      = (if 0 < Int.fdiv ((W : Int) - (S.length : Int)) 2 then
          List.replicate (Int.fdiv ((W : Int) - (S.length : Int)) 2).toNat ' '
            ++ S
        else if Int.fdiv ((W : Int) - (S.length : Int)) 2 < 0 then
          S.drop (-(Int.fdiv ((W : Int) - (S.length : Int)) 2)).toNat
        else S) := by
    rw [center_text_block_eval, hsplit, hlong]
    by_cases h1 : 0 < Int.fdiv ((W : Int) - (S.length : Int)) 2
    · rw [if_pos h1, if_pos h1]
      simp
    · rw [if_neg h1, if_neg h1]
      by_cases h2 : Int.fdiv ((W : Int) - (S.length : Int)) 2 < 0
      · rw [if_pos h2, if_pos h2]
        simp
      · rw [if_neg h2, if_neg h2]
  refine ⟨hblock.trans hline.symm, ?_, ?_⟩
  · intro hW
    have hpval : Int.fdiv ((W : Int) - (S.length : Int)) 2
        = (((W - S.length) / 2 : Nat) : Int) := by
      rw [hfd]; omega
    by_cases h0 : (W - S.length) / 2 = 0
    · rw [hline, hpval, h0]
      constructor
      · simp
      · simp
    · have hpos : 0 < Int.fdiv ((W : Int) - (S.length : Int)) 2 := by
        rw [hpval]; omega
      have htn : (Int.fdiv ((W : Int) - (S.length : Int)) 2).toNat
          = (W - S.length) / 2 := by rw [hpval]; omega
      rw [hline, if_pos hpos, htn]
      constructor
      · rfl
      · simp [Nat.add_comm]
  · intro hW
    have hneg : Int.fdiv ((W : Int) - (S.length : Int)) 2 < 0 := by
      rw [hfd]; omega
    have htn : (-(Int.fdiv ((W : Int) - (S.length : Int)) 2)).toNat
        = (S.length - W + 1) / 2 := by rw [hfd]; omega
    refine ⟨?_, by omega⟩
    rw [hline, if_neg (by omega), if_pos hneg, htn]

/-- **C7** (counterexample).  For `text = "a\nabcdefghij"` (lines of
lengths 2 and 10) and `width = 0` the block padding is
`(0 - 10) // 2 = -5`, but the first line has only 2 characters, so only
2 (not 5) leading characters are removed from it: the output is
`"fghij"`, of length 5, while removing exactly 5 characters from each
of the 2 lines would leave `12 - 2 * 5 = 2` characters. -/
theorem center_block_crop_counterexample :
    center_text ("a\nabcdefghij".toList) CenterMode.block (some 0) Option.none
      = "fghij".toList
    ∧ (splitlinesKeepends ("a\nabcdefghij".toList)).length = 2
    ∧ Int.fdiv (0 - (longestLineLength
        (splitlinesKeepends ("a\nabcdefghij".toList)) : Int)) 2 = -5
    ∧ ("a\nabcdefghij".toList).length = 12
    ∧ ("fghij".toList).length ≠ 12 - 2 * 5 := by decide

/-- **C7** (amended).  In `block` mode with the longest line measured
including its kept trailing newline: a positive padding
`(width - longest) // 2` is prepended to every line; a negative one
removes `min |padding| (len line)` leading characters from every line —
exactly `|padding|` only from lines at least that long, shorter lines
are emptied; zero padding returns the text unchanged. -/
theorem center_block_mode (text : List Char) (W : Int) :
    (0 < Int.fdiv
        (W - (longestLineLength (splitlinesKeepends text) : Int)) 2 →
      center_text text CenterMode.block (some W) Option.none
        = ((splitlinesKeepends text).map (fun line =>
            List.replicate (Int.fdiv
              (W - (longestLineLength (splitlinesKeepends text) : Int))
                2).toNat ' ' ++ line)).flatten)
    ∧ (Int.fdiv
        (W - (longestLineLength (splitlinesKeepends text) : Int)) 2 < 0 →
      center_text text CenterMode.block (some W) Option.none
        = ((splitlinesKeepends text).map (fun line =>
            line.drop (-(Int.fdiv
              (W - (longestLineLength (splitlinesKeepends text) : Int))
                2)).toNat)).flatten
      ∧ ∀ line ∈ splitlinesKeepends text,
          (line.drop (-(Int.fdiv
            (W - (longestLineLength (splitlinesKeepends text) : Int))
              2)).toNat).length
          = line.length - min (-(Int.fdiv
              (W - (longestLineLength (splitlinesKeepends text) : Int))
                2)).toNat line.length)
    ∧ (Int.fdiv
        (W - (longestLineLength (splitlinesKeepends text) : Int)) 2 = 0 →
      center_text text CenterMode.block (some W) Option.none = text) := by
  set p : Int :=
    Int.fdiv (W - (longestLineLength (splitlinesKeepends text) : Int)) 2
    with hp
  refine ⟨?_, ?_, ?_⟩
  · intro hpos
    rw [center_text_block_eval, ← hp, if_pos hpos]
    exact foldl_append_eq_flatten_map _ _ []
  · intro hneg
    constructor
    · rw [center_text_block_eval, ← hp, if_neg (by omega), if_pos hneg]
      exact foldl_append_eq_flatten_map _ _ []
    · intro line _
      rw [List.length_drop]
      omega
  · intro hz
    rw [center_text_block_eval, ← hp, if_neg (by omega), if_neg (by omega)]

/-- Witness for the amended C7 at `text = "a\nabcdefghij"`, `W = 0`
(negative padding branch). -/
theorem center_block_mode_witness :
    center_text ("a\nabcdefghij".toList) CenterMode.block (some 0) Option.none
      = ((splitlinesKeepends ("a\nabcdefghij".toList)).map (fun line =>
          line.drop (-(Int.fdiv ((0 : Int) - (longestLineLength
            (splitlinesKeepends ("a\nabcdefghij".toList)) : Int))
              2)).toNat)).flatten :=
  ((center_block_mode ("a\nabcdefghij".toList) 0).2.1 (by decide)).1

/-- Witness for the amended C6 at `S = "ab"` with `W = 10` and
`W = 1`. -/
theorem center_text_single_line_witness :
    (center_text ("ab".toList) CenterMode.line (some ((10 : Nat) : Int))
        Option.none
      = List.replicate ((10 - ("ab".toList).length) / 2) ' ' ++ "ab".toList)
    ∧ (center_text ("ab".toList) CenterMode.line (some ((1 : Nat) : Int))
        Option.none
      = ("ab".toList).drop ((("ab".toList).length - 1 + 1) / 2)) :=
  ⟨((center_text_single_line ("ab".toList) 10 (by decide) (by decide)).2.1
      (by decide)).1,
   ((center_text_single_line ("ab".toList) 1 (by decide) (by decide)).2.2
      (by decide)).1⟩

/-! ## C2, C3: `play` -/

/-- The answer labels generated in `play` (source line 736):
`chr(ord(a_label_base) + a_num)` for each answer index, with no bounds
check of any kind. -/
def answerLabels (aBase n : Nat) : List Nat :=
  (List.range n).map (fun i => aBase + i)

/-- The `allowed_responses` list built in `play` (source line 737): the
lowered answer labels. -/
def allowedResponses (aBase n : Nat) : List Nat :=
  (answerLabels aBase n).map toLowerC

/-- One round's input loop of `play` (source lines 774-809), driven by
a script of key codes; `-1` is the curses timeout sentinel.  Returns
`some (Option.none, rest)` on timeout (the `return False` path),
`some (some a_index, rest)` on a valid key (where
`a_index = ord(c.upper()) - ord(a_label_base.upper())`), retries on an
invalid key, and `Option.none` if the script runs out (the real read
would keep blocking). -/
def roundInput (aBase n : Nat) : List Int → Option (Option Int × List Int)
  | [] => Option.none
  | ch :: rest =>
    if ch = -1 then some (Option.none, rest)
    else if toLowerC ch.toNat ∈ allowedResponses aBase n then
      some (some ((toUpperC ch.toNat : Int) - (toUpperC aBase : Int)), rest)
    else roundInput aBase n rest

/-- The round loop of `play` (source lines 703-815).  A round is its
list of answer categories.  On timeout `play` returns `False` without
ever storing the accumulated responses — the source assigns
`session['user_responses']['responses']` only after the last round —
and on a valid answer it appends `qa['answers'][a_index]['category']`
and moves on.  The result pairs the return value of `play` with the
final `responses` entry of the session (`Option.none` when the key was
never written); `Option.none` overall is a model artifact (script
exhausted or `IndexError`). -/
def playGo (aBase : Nat) :
    List (List Nat) → List Int → List Nat → Option (Bool × Option (List Nat))
  | [], _, acc => some (true, some acc)
  | r :: rs, script, acc =>
    match roundInput aBase r.length script with
    | Option.none => Option.none
    | some (Option.none, _) => some (false, Option.none)
    | some (some idx, rest) =>
      match pyGet r idx with
      | Option.none => Option.none
      | some cat => playGo aBase rs rest (acc ++ [cat])

/-- `play` over a session's rounds, starting from the empty
`responses` list of source line 703. -/
def play (aBase : Nat) (rounds : List (List Nat)) (script : List Int) :
    Option (Bool × Option (List Nat)) :=
  playGo aBase rounds script []

theorem playGo_spec (aBase : Nat) (rounds : List (List Nat)) :
    ∀ (script : List Int) (acc : List Nat) (b : Bool)
      (st : Option (List Nat)),
      playGo aBase rounds script acc = some (b, st) →
      (b = false → st = Option.none)
      ∧ (b = true → ∃ l, st = some (acc ++ l) ∧ l.length = rounds.length
          ∧ ∀ (i : Nat) (hi : i < rounds.length) (hl : i < l.length),
              l.get ⟨i, hl⟩ ∈ rounds.get ⟨i, hi⟩) := by
  induction rounds with
  | nil =>
    intro script acc b st h
    simp only [playGo, Option.some.injEq, Prod.mk.injEq] at h
    obtain ⟨hb, hst⟩ := h
    subst hb
    subst hst
    refine ⟨fun hf => absurd hf (by simp), fun _ => ⟨[], by simp, by simp, ?_⟩⟩
    intro i hi
    exact absurd hi (by simp)
  | cons r rs ih =>
    intro script acc b st h
    rw [playGo] at h
    cases hri : roundInput aBase r.length script with
    | none => rw [hri] at h; exact absurd h (by simp)
    | some p =>
      obtain ⟨oidx, rest⟩ := p
      rw [hri] at h
      cases oidx with
      | none =>
        simp only [Option.some.injEq, Prod.mk.injEq] at h
        obtain ⟨hb, hst⟩ := h
        subst hb
        subst hst
        exact ⟨fun _ => rfl, fun ht => absurd ht (by simp)⟩
      | some idx =>
        dsimp only at h
        cases hg : pyGet r idx with
        | none => rw [hg] at h; exact absurd h (by simp)
        | some cat =>
          rw [hg] at h
          have hmem : cat ∈ r := pyGet_mem r idx cat hg
          have hrec := ih rest (acc ++ [cat]) b st h
          refine ⟨hrec.1, fun ht => ?_⟩
          obtain ⟨l, hst, hlen, hget⟩ := hrec.2 ht
          refine ⟨cat :: l, by simpa using hst, by simpa using hlen, ?_⟩
          intro i hi hl
          cases i with
          | zero => simpa using hmem
          | succ j =>
            have hj := hget j (by simpa using hi) (by simpa using hl)
            simpa using hj

/-- **C2.** Whenever `play` returns: a `False` return leaves the
session without a `responses` entry, so no outcome can be tabulated
from earlier rounds — and a timeout sentinel (`-1`) read at the start
of a round produces exactly that `False`-and-nothing-stored result; a
`True` return means every round received a valid response, and then
the stored `responses` list holds exactly one category per round, in
round order, each drawn from that round's answers. -/
theorem play_timeout_aborts_success_stores
    (aBase : Nat) (rounds : List (List Nat)) (script : List Int)
    (b : Bool) (st : Option (List Nat))
    (h : play aBase rounds script = some (b, st)) :
    (b = false → st = Option.none)
    ∧ (∀ (r : List Nat) (rs : List (List Nat)) (s : List Int),
        play aBase (r :: rs) ((-1) :: s) = some (false, Option.none))
    ∧ (b = true → ∃ l, st = some l ∧ l.length = rounds.length
        ∧ ∀ (i : Nat) (hi : i < rounds.length) (hl : i < l.length),
            l.get ⟨i, hl⟩ ∈ rounds.get ⟨i, hi⟩) := by
  have hs := playGo_spec aBase rounds script [] b st h
  refine ⟨hs.1, ?_, ?_⟩
  · intro r rs s
    rw [play, playGo]
    rw [show roundInput aBase r.length ((-1) :: s)
          = some (Option.none, s) from by rw [roundInput]; simp]
  · intro ht
    obtain ⟨l, hst, hlen, hget⟩ := hs.2 ht
    exact ⟨l, by simpa using hst, hlen, hget⟩

/-- Witness for C2: a 2-round session (categories `[5,6]` and `[7]`,
labels from `a`) with script `b`, `a` completes with `responses`
`[6, 7]`. -/
theorem play_timeout_aborts_success_stores_witness :
    (true = false → (some [6, 7] : Option (List Nat)) = Option.none)
    ∧ (∀ (r : List Nat) (rs : List (List Nat)) (s : List Int),
        play 97 (r :: rs) ((-1) :: s) = some (false, Option.none))
    ∧ (true = true → ∃ l, (some [6, 7] : Option (List Nat)) = some l
        ∧ l.length = ([[5, 6], [7]] : List (List Nat)).length
        ∧ ∀ (i : Nat) (hi : i < ([[5, 6], [7]] : List (List Nat)).length)
            (hl : i < l.length),
            l.get ⟨i, hl⟩ ∈ ([[5, 6], [7]] : List (List Nat)).get ⟨i, hi⟩) :=
  play_timeout_aborts_success_stores 97 [[5, 6], [7]] [98, 97] true
    (some [6, 7]) (by decide)

/-- **C3** (counterexample).  With answer label base `a` and a round
of 30 answers — more than the 26 remaining letters — `play` performs no
overflow check: the generated labels include the out-of-alphabet code
123 (the character after `z`), and `play` proceeds to normal completion
on a valid key instead of logging and terminating. -/
theorem label_overflow_counterexample :
    123 ∈ answerLabels 97 30
    ∧ ¬(97 ≤ 123 ∧ 123 ≤ 122)
    ∧ play 97 [List.range 30] [97] = some (true, some [0]) := by decide

/-- **C3** (amended).  `play` generates round and answer labels by
unchecked character arithmetic (`chr(ord(base) + index)`): with
lowercase base `a`, any round of more than 26 answers silently yields a
label beyond `z` (code above 122), and `play` still accepts a valid
key and completes normally — there is no overflow detection, logging,
or termination. -/
theorem label_overflow_silent (n : Nat) (h : 26 < n) :
    (∃ l ∈ answerLabels 97 n, 122 < l)
    ∧ play 97 [List.range n] [97] = some (true, some [0]) := by
  constructor
  · refine ⟨97 + 26, ?_, by omega⟩
    simp only [answerLabels, List.mem_map]
    exact ⟨26, List.mem_range.mpr h, rfl⟩
  · have hmem : toLowerC ((97 : Int)).toNat ∈ allowedResponses 97 n := by
      simp only [allowedResponses, answerLabels, List.mem_map]
      exact ⟨97, ⟨0, List.mem_range.mpr (by omega), by simp⟩, rfl⟩
    rw [play, playGo]
    rw [show roundInput 97 (List.range n).length [97]
          = some (some ((toUpperC ((97 : Int)).toNat : Int)
              - (toUpperC 97 : Int)), []) from by
        rw [roundInput]
        rw [if_neg (by decide), if_pos (by simpa using hmem)]]
    have hidx : ((toUpperC ((97 : Int)).toNat : Int)
        - (toUpperC 97 : Int)) = 0 := by decide
    rw [hidx]
    dsimp only
    rw [show pyGet (List.range n) 0 = some 0 from by
      rw [pyGet, if_pos (by omega)]
      simpa using List.getElem?_range (by omega : 0 < n)]
    rfl

/-- Witness for the amended C3 at `n = 30`. -/
theorem label_overflow_silent_witness :
    (∃ l ∈ answerLabels 97 30, 122 < l)
    ∧ play 97 [List.range 30] [97] = some (true, some [0]) :=
  label_overflow_silent 30 (by decide)

/-! ## C4: warning timers in the input loop of `play` -/

/-- Timer-related events of one round's input request. -/
inductive TEvent
  | start (i : Nat)
  | keyRead (ch : Int)
  | cancel (i : Nat)
deriving DecidableEq

/-- Timer-event trace of one round's input loop (source lines 774-813),
with warning timers numbered by loop iteration.  Each iteration arms a
fresh warning timer (`start`), performs the timed key read (`keyRead`),
and cancels the timer (`cancel`) immediately after the read returns.
A timeout then returns `False` straight away; a valid key breaks out
of the loop and reaches the post-loop `try: warning_timer.cancel()` —
a second, harmless cancel of the same timer; an invalid key re-enters
the loop, arming the next timer. -/
def inputLoopTrace (aBase n : Nat) : List Int → Nat → List TEvent
  | [], _ => []
  | ch :: rest, i =>
    TEvent.start i :: TEvent.keyRead ch :: TEvent.cancel i ::
      (if ch = -1 then []
       else if toLowerC ch.toNat ∈ allowedResponses aBase n then
         [TEvent.cancel i]
       else inputLoopTrace aBase n rest (i + 1))

/-- Effect of one event on the list of alive (armed, not canceled)
timers. -/
def aliveStep (s : List Nat) : TEvent → List Nat
  | TEvent.start i => s ++ [i]
  | TEvent.cancel i => s.erase i
  | TEvent.keyRead _ => s

/-- The timers alive after a sequence of events. -/
def aliveAfter (es : List TEvent) : List Nat := es.foldl aliveStep []

theorem aliveAfter_take_le_one (aBase n : Nat) (script : List Int) :
    ∀ (i k : Nat),
      (aliveAfter ((inputLoopTrace aBase n script i).take k)).length ≤ 1 := by
  induction script with
  | nil => intro i k; simp [inputLoopTrace, aliveAfter]
  | cons ch rest ih =>
    intro i k
    rw [inputLoopTrace]
    match k with
    | 0 => simp [aliveAfter]
    | 1 => simp [aliveAfter, aliveStep]
    | 2 => simp [aliveAfter, aliveStep]
    | (m + 3) =>
      by_cases h1 : ch = -1
      · rw [if_pos h1]
        simp [aliveAfter, aliveStep]
      · rw [if_neg h1]
        by_cases h2 : toLowerC ch.toNat ∈ allowedResponses aBase n
        · rw [if_pos h2]
          match m with
          | 0 => simp [aliveAfter, aliveStep]
          | (m' + 1) => simp [aliveAfter, aliveStep, List.take_cons]
        · rw [if_neg h2]
          have htake : (TEvent.start i :: TEvent.keyRead ch :: TEvent.cancel i
              :: inputLoopTrace aBase n rest (i + 1)).take (m + 3)
              = TEvent.start i :: TEvent.keyRead ch :: TEvent.cancel i
                :: (inputLoopTrace aBase n rest (i + 1)).take m := rfl
          rw [htake]
          have halive : aliveAfter (TEvent.start i :: TEvent.keyRead ch
              :: TEvent.cancel i
              :: (inputLoopTrace aBase n rest (i + 1)).take m)
              = aliveAfter ((inputLoopTrace aBase n rest (i + 1)).take m) := by
            simp [aliveAfter, aliveStep]
          rw [halive]
          exact ih (i + 1) m

theorem inputLoopTrace_head_not_read (aBase n : Nat) (script : List Int)
    (i : Nat) (ch : Int) :
    (inputLoopTrace aBase n script i)[0]? ≠ some (TEvent.keyRead ch) := by
  cases script <;> simp [inputLoopTrace]

theorem read_then_cancel (aBase n : Nat) (script : List Int) :
    ∀ (i k : Nat) (ch : Int),
      (inputLoopTrace aBase n script i)[k]? = some (TEvent.keyRead ch) →
      ∃ j, (inputLoopTrace aBase n script i)[k - 1]?
              = some (TEvent.start j)
        ∧ (inputLoopTrace aBase n script i)[k + 1]?
              = some (TEvent.cancel j) := by
  induction script with
  | nil => intro i k ch h; rw [inputLoopTrace] at h; simp at h
  | cons c rest ih =>
    intro i k ch h
    rw [inputLoopTrace] at h ⊢
    match k with
    | 0 => simp at h
    | 1 => exact ⟨i, by simp, by simp⟩
    | 2 => simp at h
    | (m + 3) =>
      simp only [List.getElem?_cons_succ] at h
      by_cases h1 : c = -1
      · rw [if_pos h1] at h; simp at h
      · rw [if_neg h1] at h ⊢
        by_cases h2 : toLowerC c.toNat ∈ allowedResponses aBase n
        · rw [if_pos h2] at h ⊢
          match m with
          | 0 => simp at h
          | (m' + 1) => simp at h
        · rw [if_neg h2] at h ⊢
          match m with
          | 0 =>
            exact absurd h
              (inputLoopTrace_head_not_read aBase n rest (i + 1) ch)
          | (m' + 1) =>
            obtain ⟨j, hs, hc⟩ := ih (i + 1) (m' + 1) ch h
            refine ⟨j, ?_, ?_⟩
            · simpa using hs
            · simpa using hc

/-- **C4.** In each round's input request: in every prefix of the timer
event trace at most one warning timer is alive (armed and not yet
canceled) — so the timer armed by the previous iteration is always
canceled before a fresh one starts — and every return of the timed key
read is immediately followed by a cancel of the timer armed just before
it. -/
theorem warning_timer_discipline (aBase n : Nat) (script : List Int) :
    (∀ k, (aliveAfter ((inputLoopTrace aBase n script 0).take k)).length ≤ 1)
    ∧ (∀ (k : Nat) (ch : Int),
        (inputLoopTrace aBase n script 0)[k]? = some (TEvent.keyRead ch) →
        ∃ j, (inputLoopTrace aBase n script 0)[k - 1]?
                = some (TEvent.start j)
          ∧ (inputLoopTrace aBase n script 0)[k + 1]?
                = some (TEvent.cancel j)) :=
  ⟨fun k => aliveAfter_take_le_one aBase n script 0 k,
   fun k ch h => read_then_cancel aBase n script 0 k ch h⟩

/-- Witness for C4: two answers (labels `a`, `b`), script with an
invalid key `x` then the valid key `b`; the key read of the retry
iteration sits between the start and the cancel of timer 1. -/
theorem warning_timer_discipline_witness :
    ((aliveAfter ((inputLoopTrace 97 2 [120, 98] 0).take 4)).length ≤ 1)
    ∧ (∃ j, (inputLoopTrace 97 2 [120, 98] 0)[4 - 1]?
            = some (TEvent.start j)
        ∧ (inputLoopTrace 97 2 [120, 98] 0)[4 + 1]?
            = some (TEvent.cancel j)) :=
  ⟨(warning_timer_discipline 97 2 [120, 98]).1 4,
   (warning_timer_discipline 97 2 [120, 98]).2 4 98 (by decide)⟩


/-! ## C5: `teletype` -/

/-- The two unit modes of `teletype`: `chr` paints one character at a
time; any other mode string (the source passes `line`) paints one line
at a time. -/
inductive TMode
  | chr | line
deriving DecidableEq

/-- The unit sequence `teletype` iterates over (source lines 304-307). -/
def teletypeUnits (text : List Char) : TMode → List (List Char)
  | TMode.chr => text.map (fun c => [c])
  | TMode.line => splitlinesKeepends text

/-- The paint loop of `teletype` (source lines 318-335), driven by the
poll results `polls` (`polls i` is what the non-blocking
`window.getch()` returns after unit `i` is painted; `-1` means no
pending key, and without `interruptable` no poll happens).  Each
painted unit is recorded with a flag telling whether the frame delay
(`window.refresh(); time.sleep(spf)`) followed it: on a detected
keypress the loop breaks before the delay and the remainder of the
text is painted in one shot with no per-unit delay.  The boolean
result is `interrupted`. -/
def teletypeGo (polls : Nat → Int) (interruptable : Bool) :
    List (List Char) → Nat → List (List Char × Bool)
      → List (List Char × Bool) × Bool
  | [], _, acc => (acc, false)
  | u :: rest, i, acc =>
    if interruptable ∧ polls i ≠ -1 then
      (acc ++ (u, false) :: rest.map (fun v => (v, false)), true)
    else teletypeGo polls interruptable rest (i + 1) (acc ++ [(u, true)])

/-- `teletype` (source lines 293-339): paint every unit of the text in
order, polling for a pending keypress after each unit if
`interruptable`. -/
def teletype (text : List Char) (mode : TMode) (interruptable : Bool)
    (polls : Nat → Int) : List (List Char × Bool) × Bool :=
  teletypeGo polls interruptable (teletypeUnits text mode) 0 []

/-- Index of the first poll reporting a pending key among the first
`n` polls. -/
def firstHit (polls : Nat → Int) (n : Nat) : Option Nat :=
  (List.range n).find? (fun i => polls i != -1)

theorem find?_congr_mem (p q : α → Bool) (l : List α)
    (h : ∀ a ∈ l, p a = q a) : l.find? p = l.find? q := by
  induction l with
  | nil => rfl
  | cons a t ih =>
    have ha := h a (List.mem_cons_self a t)
    by_cases hp : p a = true
    · rw [List.find?_cons_of_pos t hp, List.find?_cons_of_pos t (ha ▸ hp)]
    · rw [List.find?_cons_of_neg t hp, List.find?_cons_of_neg t (ha ▸ hp)]
      exact ih (fun a ha => h a (List.mem_cons_of_mem _ ha))

theorem teletypeGo_eval (polls : Nat → Int) (us : List (List Char)) :
    ∀ (i : Nat) (acc : List (List Char × Bool)),
      teletypeGo polls true us i acc
        = match (List.range us.length).find?
            (fun j => polls (i + j) != -1) with
          | Option.none => (acc ++ us.map (fun u => (u, true)), false)
          | some j => (acc ++ ((us.take j).map (fun u => (u, true))
              ++ (us.drop j).map (fun u => (u, false))), true) := by
  induction us with
  | nil => intro i acc; simp [teletypeGo]
  | cons u rest ih =>
    intro i acc
    rw [teletypeGo]
    rw [List.length_cons, List.range_succ_eq_map]
    by_cases h : polls i ≠ -1
    · rw [if_pos ⟨rfl, h⟩]
      rw [List.find?_cons_of_pos _ (by simpa using h)]
      simp
    · rw [if_neg (fun hc => h hc.2)]
      rw [List.find?_cons_of_neg _ (by simpa using h)]
      rw [List.find?_map]
      rw [find?_congr_mem ((fun j => polls (i + j) != -1) ∘ Nat.succ)
        (fun j => polls ((i + 1) + j) != -1) (List.range rest.length)
        (fun a _ => by
          simp only [Function.comp_apply]
          rw [show i + Nat.succ a = i + 1 + a from by omega])]
      rw [ih (i + 1) (acc ++ [(u, true)])]
      cases hf : (List.range rest.length).find?
          (fun j => polls ((i + 1) + j) != -1) with
      | none => simp
      | some j => simp

theorem teletypeGo_not_interruptable (polls : Nat → Int)
    (us : List (List Char)) :
    ∀ (i : Nat) (acc : List (List Char × Bool)),
      teletypeGo polls false us i acc
        = (acc ++ us.map (fun u => (u, true)), false) := by
  induction us with
  | nil => intro i acc; simp [teletypeGo]
  | cons u rest ih =>
    intro i acc
    rw [teletypeGo, if_neg (fun hc => by exact absurd hc.1 (by simp))]
    rw [ih (i + 1) (acc ++ [(u, true)])]
    simp

theorem flatten_map_singleton (text : List Char) :
    (text.map (fun c => [c])).flatten = text := by
  induction text with
  | nil => rfl
  | cons c t ih => simp [ih]

/-- The units always rejoin to the original text. -/
theorem teletypeUnits_flatten (text : List Char) (mode : TMode) :
    (teletypeUnits text mode).flatten = text := by
  cases mode with
  | chr => exact flatten_map_singleton text
  | line => exact splitlinesKeepends_join text

/-- **C5.** For every text (in both `chr` and `line` unit modes):
whatever the polls report, every unit of the text is painted, in
order; with `interruptable=false` all units are painted with their
frame delay and the call reports not interrupted; with
`interruptable=true` the call reports interrupted exactly when some
poll during the animation sees a pending key, in which case every unit
from the first hit onward is painted with no per-unit delay (the
remainder in one shot) while the units before it were animated; when
no poll hits, all units are animated and the call reports not
interrupted. -/
theorem teletype_spec (text : List Char) (mode : TMode) (polls : Nat → Int) :
    ((teletype text mode true polls).1.map Prod.fst).flatten = text
    ∧ (teletype text mode false polls
        = ((teletypeUnits text mode).map (fun u => (u, true)), false))
    ∧ ((teletype text mode true polls).2 = true
        ↔ ∃ i < (teletypeUnits text mode).length, polls i ≠ -1)
    ∧ (∀ j, firstHit polls (teletypeUnits text mode).length = some j →
        teletype text mode true polls
          = (((teletypeUnits text mode).take j).map (fun u => (u, true))
              ++ ((teletypeUnits text mode).drop j).map (fun u => (u, false)),
             true))
    ∧ (firstHit polls (teletypeUnits text mode).length = Option.none →
        teletype text mode true polls
          = ((teletypeUnits text mode).map (fun u => (u, true)), false)) := by
  have heval := teletypeGo_eval polls (teletypeUnits text mode) 0 []
  have hpred : (List.range (teletypeUnits text mode).length).find?
      (fun j => polls (0 + j) != -1)
      = firstHit polls (teletypeUnits text mode).length := by
    rw [firstHit]
    exact find?_congr_mem _ _ _ (fun a _ => by simp)
  rw [hpred] at heval
  refine ⟨?_, ?_, ?_, ?_, ?_⟩
  · rw [teletype, heval]
    cases hf : firstHit polls (teletypeUnits text mode).length with
    | none =>
      simp only [List.nil_append, List.map_map]
      rw [show (Prod.fst ∘ fun u => (u, true))
            = (id : List Char → List Char) from rfl]
      simpa using teletypeUnits_flatten text mode
    | some j =>
      simp only [List.nil_append, List.map_append, List.map_map]
      rw [show (Prod.fst ∘ fun u : List Char => (u, true))
            = (id : List Char → List Char) from rfl,
          show (Prod.fst ∘ fun u : List Char => (u, false))
            = (id : List Char → List Char) from rfl]
      simp only [List.map_id]
      rw [List.take_append_drop]
      exact teletypeUnits_flatten text mode
  · rw [teletype, teletypeGo_not_interruptable polls _ 0 []]
    simp
  · rw [teletype, heval]
    cases hf : firstHit polls (teletypeUnits text mode).length with
    | none =>
      simp only []
      constructor
      · intro h; exact absurd h (by simp)
      · intro ⟨i, hi, hp⟩
        have : (firstHit polls (teletypeUnits text mode).length).isSome := by
          rw [firstHit]
          exact List.find?_isSome.mpr
            ⟨i, List.mem_range.mpr hi, by simpa using hp⟩
        rw [hf] at this
        exact absurd this (by simp)
    | some j =>
      simp only []
      constructor
      · intro _
        have hj := List.find?_some (by rw [← firstHit]; exact hf)
        have hjm : j ∈ List.range (teletypeUnits text mode).length :=
          List.mem_of_find?_eq_some (by rw [← firstHit]; exact hf)
        exact ⟨j, List.mem_range.mp hjm, by simpa using hj⟩
      · intro _; trivial
  · intro j hf
    rw [teletype, heval, hf]
    simp
  · intro hf
    rw [teletype, heval, hf]
    simp

/-- Witness for C5 at `text = "abc"`, character mode, with a pending
key first seen by the poll after the second unit. -/
theorem teletype_spec_witness :
    ((teletype ("abc".toList) TMode.chr true
        (fun n => if n = 1 then 32 else -1)).2 = true
      ↔ ∃ i < (teletypeUnits ("abc".toList) TMode.chr).length,
          (fun n : Nat => if n = 1 then (32 : Int) else -1) i ≠ -1)
    ∧ teletype ("abc".toList) TMode.chr true
        (fun n => if n = 1 then 32 else -1)
      = (((teletypeUnits ("abc".toList) TMode.chr).take 1).map
            (fun u => (u, true))
          ++ ((teletypeUnits ("abc".toList) TMode.chr).drop 1).map
            (fun u => (u, false)), true) :=
  ⟨(teletype_spec ("abc".toList) TMode.chr
      (fun n => if n = 1 then 32 else -1)).2.2.1,
   (teletype_spec ("abc".toList) TMode.chr
      (fun n => if n = 1 then 32 else -1)).2.2.2.1 1 (by decide)⟩


/-! ## C1: `calc_result` -/

/-- One update of `collections.Counter`: increment the count of an
already-seen key, append an unseen key with count 1.  `Counter`
preserves first-seen key order (Python dicts are insertion-ordered). -/
def cstep (acc : List (Nat × Nat)) (r : Nat) : List (Nat × Nat) :=
  if acc.any (fun p => decide (p.1 = r)) then
    acc.map (fun p => if p.1 = r then (p.1, p.2 + 1) else p)
  else acc ++ [(r, 1)]

/-- Model of `collections.Counter(responses)` (source line 560):
`(category, count)` pairs in first-seen key order. -/
def counter (rs : List Nat) : List (Nat × Nat) := rs.foldl cstep []

/-- Loop state of `calc_result`: running highest count, winner (the
unassigned Python local `winner` is `Option.none`), the `all_equal`
flag and the previous count. -/
structure CalcSt where
  highest : Nat
  winner : Option Nat
  allEq : Bool
  prevV : Nat

/-- One iteration of the loop of `calc_result` (source lines 564-570):
take the winner on a strictly higher count, clear `all_equal` when two
consecutive counts differ (`prev_v > 0` skips the first iteration),
remember the count. -/
def calcStep (st : CalcSt) (kv : Nat × Nat) : CalcSt :=
  CalcSt.mk
    (if st.highest < kv.2 then kv.2 else st.highest)
    (if st.highest < kv.2 then some kv.1 else st.winner)
    (if st.allEq ∧ 0 < st.prevV ∧ kv.2 ≠ st.prevV then false else st.allEq)
    kv.2

/-- Model of `calc_result` (source lines 556-574): the winner of a
simple majority, else `None`. -/
def calc_result (rs : List Nat) : Option Nat :=
  let count := counter rs
  let st := count.foldl calcStep
    (CalcSt.mk 0 Option.none (decide (count.length ≠ 1)) 0)
  if st.allEq then Option.none else st.winner

/-- The distinct categories of a response list, in first-seen order. -/
def firstSeen (rs : List Nat) : List Nat :=
  rs.foldl (fun acc r => if r ∈ acc then acc else acc ++ [r]) []

/-- Largest count in a counter list. -/
def lmax (c : List (Nat × Nat)) : Nat := (c.map Prod.snd).foldl max 0

/-- Count of the last entry (0 for the empty counter): the final value
of `prev_v`. -/
def lastV (c : List (Nat × Nat)) : Nat := ((c.getLast?).map Prod.snd).getD 0

/-- Count of the first entry (0 for the empty counter). -/
def headV (c : List (Nat × Nat)) : Nat := ((c.head?).map Prod.snd).getD 0

/-- All counts of the counter list equal. -/
def allEqB (c : List (Nat × Nat)) : Bool :=
  c.all (fun p => decide (p.2 = headV c))

theorem foldl_max_le_iff (l : List Nat) :
    ∀ (a v : Nat), l.foldl max a ≤ v ↔ a ≤ v ∧ ∀ x ∈ l, x ≤ v := by
  induction l with
  | nil => intro a v; simp
  | cons b t ih =>
    intro a v
    rw [List.foldl_cons, ih]
    simp only [List.mem_cons]
    constructor
    · rintro ⟨h1, h2⟩
      refine ⟨le_trans (le_max_left a b) h1, fun y hy => ?_⟩
      rcases hy with rfl | hy
      · exact le_trans (le_max_right a y) h1
      · exact h2 y hy
    · rintro ⟨h1, h2⟩
      exact ⟨max_le h1 (h2 b (Or.inl rfl)), fun y hy => h2 y (Or.inr hy)⟩

theorem foldl_max_mem (l : List Nat) :
    ∀ a, l.foldl max a = a ∨ l.foldl max a ∈ l := by
  induction l with
  | nil => intro a; exact Or.inl rfl
  | cons x t ih =>
    intro a
    rw [List.foldl_cons]
    rcases ih (max a x) with h | h
    · rcases Nat.le_total a x with hax | hax
      · right; rw [h, max_eq_right hax]; exact List.mem_cons_self x t
      · left; rw [h, max_eq_left hax]
    · right; exact List.mem_cons_of_mem x h

theorem lmax_le_iff (c : List (Nat × Nat)) (v : Nat) :
    lmax c ≤ v ↔ ∀ p ∈ c, p.2 ≤ v := by
  rw [lmax, foldl_max_le_iff]
  constructor
  · intro h p hp
    exact h.2 p.2 (List.mem_map.mpr ⟨p, hp, rfl⟩)
  · intro h
    refine ⟨Nat.zero_le v, fun y hy => ?_⟩
    obtain ⟨p, hp, rfl⟩ := List.mem_map.mp hy
    exact h p hp

theorem le_lmax_of_mem (c : List (Nat × Nat)) (p : Nat × Nat) (hp : p ∈ c) :
    p.2 ≤ lmax c :=
  (lmax_le_iff c (lmax c)).mp le_rfl p hp

theorem lmax_attained (c : List (Nat × Nat)) (hne : c ≠ [])
    (hpos : ∀ p ∈ c, 0 < p.2) : ∃ p ∈ c, p.2 = lmax c := by
  rcases foldl_max_mem (c.map Prod.snd) 0 with h | h
  · obtain ⟨p, hp⟩ := List.exists_mem_of_ne_nil c hne
    have h1 : 0 < p.2 := hpos p hp
    have h2 : p.2 ≤ lmax c := le_lmax_of_mem c p hp
    rw [lmax] at *
    omega
  · obtain ⟨p, hp, hpv⟩ := List.mem_map.mp h
    exact ⟨p, hp, by rw [lmax]; exact hpv⟩

theorem lmax_append (c : List (Nat × Nat)) (x : Nat × Nat) :
    lmax (c ++ [x]) = max (lmax c) x.2 := by
  simp [lmax, List.foldl_append]

theorem lastV_append (c : List (Nat × Nat)) (x : Nat × Nat) :
    lastV (c ++ [x]) = x.2 := by
  simp [lastV]

theorem headV_append (c : List (Nat × Nat)) (x : Nat × Nat) (hne : c ≠ []) :
    headV (c ++ [x]) = headV c := by
  cases c with
  | nil => exact absurd rfl hne
  | cons p t => simp [headV]

theorem lastV_pos (c : List (Nat × Nat)) (hne : c ≠ [])
    (hpos : ∀ p ∈ c, 0 < p.2) : 0 < lastV c := by
  have hl : c.getLast? = some (c.getLast hne) := List.getLast?_eq_getLast c hne
  have hm : c.getLast hne ∈ c := List.getLast_mem hne
  rw [lastV, hl]
  exact hpos _ hm

theorem lastV_eq_headV (c : List (Nat × Nat)) (hne : c ≠ [])
    (heq : allEqB c = true) : lastV c = headV c := by
  have hl : c.getLast? = some (c.getLast hne) := List.getLast?_eq_getLast c hne
  have hm : c.getLast hne ∈ c := List.getLast_mem hne
  have := List.all_eq_true.mp heq _ hm
  rw [lastV, hl]
  simpa using this

theorem allEqB_append (c : List (Nat × Nat)) (x : Nat × Nat) (hne : c ≠ []) :
    allEqB (c ++ [x]) = (allEqB c && decide (x.2 = headV c)) := by
  rw [allEqB, allEqB, List.all_append, headV_append c x hne]
  simp


/-- Invariant of the loop of `calc_result` over any counter list with
positive counts, starting from `highest = 0`, unassigned winner and
`prev_v = 0`: the running highest is the largest count, the winner is
the first entry to reach it, `all_equal` holds iff it held initially
and all counts are equal, and `prev_v` is the last count. -/
theorem calc_fold (c : List (Nat × Nat)) (hpos : ∀ p ∈ c, 0 < p.2)
    (a : Bool) :
    c.foldl calcStep (CalcSt.mk 0 Option.none a 0)
      = CalcSt.mk (lmax c)
          ((c.find? (fun p => decide (lmax c ≤ p.2))).map Prod.fst)
          (a && allEqB c) (lastV c) := by
  induction c using List.reverseRecOn with
  | nil => simp [lmax, allEqB, lastV]
  | append_singleton c x ih =>
    have hposc : ∀ p ∈ c, 0 < p.2 :=
      fun p hp => hpos p (List.mem_append_left _ hp)
    have hxpos : 0 < x.2 :=
      hpos x (List.mem_append_right _ (List.mem_cons_self x []))
    rw [List.foldl_append, List.foldl_cons, List.foldl_nil, ih hposc]
    rw [lmax_append, lastV_append, calcStep]
    simp only [CalcSt.mk.injEq]
    refine ⟨?_, ?_, ?_, trivial⟩
    · rcases Nat.lt_or_ge (lmax c) x.2 with hx | hx
      · rw [if_pos hx, max_eq_right (le_of_lt hx)]
      · rw [if_neg (by omega), max_eq_left hx]
    · rcases Nat.lt_or_ge (lmax c) x.2 with hx | hx
      · rw [if_pos hx, max_eq_right (le_of_lt hx)]
        have hcnone : c.find? (fun p => decide (x.2 ≤ p.2)) = Option.none :=
          List.find?_eq_none.mpr (fun p hp => by
            have := le_lmax_of_mem c p hp
            simp only [decide_eq_true_eq]
            omega)
        rw [List.find?_append, hcnone, Option.none_or,
          List.find?_cons_of_pos _ (by simp)]
        rfl
      · rw [if_neg (by omega), max_eq_left hx]
        have hcne : c ≠ [] := by
          intro hc
          subst hc
          rw [show lmax [] = 0 from rfl] at hx
          omega
        obtain ⟨p, hp, hpl⟩ := lmax_attained c hcne hposc
        have hsome : (c.find? (fun p => decide (lmax c ≤ p.2))).isSome :=
          List.find?_isSome.mpr ⟨p, hp, by simp [hpl]⟩
        obtain ⟨w, hw⟩ := Option.isSome_iff_exists.mp hsome
        rw [List.find?_append, hw]
        rfl
    · by_cases hce : c = []
      · subst hce
        simp [lastV, allEqB, headV]
      · have hlast : 0 < lastV c := lastV_pos c hce hposc
        rw [allEqB_append c x hce]
        by_cases hae : allEqB c = true
        · have hlh : lastV c = headV c := lastV_eq_headV c hce hae
          by_cases ha : a = true
          · by_cases hxv : x.2 = lastV c
            · rw [if_neg (by
                rintro ⟨h1, h2, h3⟩
                exact h3 hxv)]
              rw [hae, ha, hlh] at *
              simp [← hxv, hlh]
            · rw [if_pos ⟨by rw [hae, ha]; rfl, hlast, hxv⟩]
              have : decide (x.2 = headV c) = false := by
                simp only [decide_eq_false_iff_not]
                rw [← hlh]
                exact hxv
              rw [this]
              simp
          · have ha' : a = false := by
              cases a
              · rfl
              · exact absurd rfl ha
            subst ha'
            rw [if_neg (by rintro ⟨h1, h2, h3⟩; simp at h1)]
            simp
        · have hae' : allEqB c = false := by
            cases haec : allEqB c
            · rfl
            · exact absurd haec hae
          rw [hae']
          rw [if_neg (by rintro ⟨h1, h2, h3⟩; simp [hae'] at h1)]
          simp


theorem counter_append (rs : List Nat) (r : Nat) :
    counter (rs ++ [r]) = cstep (counter rs) r := by
  simp [counter, List.foldl_append]

theorem firstSeen_append (rs : List Nat) (r : Nat) :
    firstSeen (rs ++ [r])
      = if r ∈ firstSeen rs then firstSeen rs else firstSeen rs ++ [r] := by
  simp [firstSeen, List.foldl_append]

/-- The keys of the counter are the distinct categories in first-seen
order (mirrors `collections.Counter` key order). -/
theorem counter_keys (rs : List Nat) :
    (counter rs).map Prod.fst = firstSeen rs := by
  induction rs using List.reverseRecOn with
  | nil => rfl
  | append_singleton rs r ih =>
    rw [counter_append, firstSeen_append, ← ih, cstep]
    by_cases hm : (counter rs).any (fun p => decide (p.1 = r)) = true
    · rw [if_pos hm]
      have hm2 : r ∈ (counter rs).map Prod.fst := by
        obtain ⟨p, hp, hpr⟩ := List.any_eq_true.mp hm
        exact List.mem_map.mpr ⟨p, hp, by simpa using hpr⟩
      rw [if_pos hm2, List.map_map]
      exact List.map_congr_left (fun p _ => by
        by_cases h : p.1 = r <;> simp [h])
    · rw [if_neg hm]
      have hm2 : r ∉ (counter rs).map Prod.fst := by
        intro hmem
        obtain ⟨p, hp, hpr⟩ := List.mem_map.mp hmem
        exact hm (List.any_eq_true.mpr ⟨p, hp, by simpa using hpr⟩)
      rw [if_neg hm2, List.map_append]
      rfl

theorem mem_firstSeen (rs : List Nat) : ∀ k, k ∈ firstSeen rs ↔ k ∈ rs := by
  induction rs using List.reverseRecOn with
  | nil => intro k; simp [firstSeen]
  | append_singleton rs r ih =>
    intro k
    rw [firstSeen_append]
    by_cases hm : r ∈ firstSeen rs
    · rw [if_pos hm, ih k]
      simp only [List.mem_append, List.mem_singleton]
      constructor
      · exact fun h => Or.inl h
      · rintro (h | rfl)
        · exact h
        · exact (ih k).mp hm
    · rw [if_neg hm]
      simp only [List.mem_append, List.mem_singleton, ih k]

/-- Each counter entry carries the number of occurrences of its key. -/
theorem counter_counts (rs : List Nat) :
    ∀ p ∈ counter rs, p.2 = rs.count p.1 := by
  induction rs using List.reverseRecOn with
  | nil => intro p hp; exact absurd hp (by simp [counter])
  | append_singleton rs r ih =>
    intro p hp
    rw [counter_append, cstep] at hp
    by_cases hm : (counter rs).any (fun q => decide (q.1 = r)) = true
    · rw [if_pos hm] at hp
      obtain ⟨q, hq, hqe⟩ := List.mem_map.mp hp
      by_cases hqr : q.1 = r
      · rw [if_pos hqr] at hqe
        rw [← hqe]
        simp only [List.count_append]
        rw [ih q hq, hqr]
        simp [List.count_singleton]
      · rw [if_neg hqr] at hqe
        rw [← hqe]
        simp only [List.count_append]
        rw [ih q hq]
        have : List.count q.1 [r] = 0 := by
          simp [List.count_singleton]
          intro he
          exact hqr he.symm
        omega
    · rw [if_neg hm] at hp
      rcases List.mem_append.mp hp with hcp | hnew
      · have hpr : p.1 ≠ r := by
          intro he
          exact hm (List.any_eq_true.mpr ⟨p, hcp, by simp [he]⟩)
        rw [List.count_append]
        rw [ih p hcp]
        have : List.count p.1 [r] = 0 := by
          simp [List.count_singleton]
          intro he
          exact hpr he.symm
        omega
      · have hpe : p = (r, 1) := by simpa using hnew
        subst hpe
        have hr : r ∉ rs := by
          intro hrs
          have hkey : r ∈ (counter rs).map Prod.fst := by
            rw [counter_keys]
            exact (mem_firstSeen rs r).mpr hrs
          obtain ⟨q, hq, hqr⟩ := List.mem_map.mp hkey
          exact hm (List.any_eq_true.mpr ⟨q, hq, by simp [hqr]⟩)
        rw [List.count_append]
        have h0 : List.count (r, 1).1 rs = 0 := List.count_eq_zero.mpr hr
        rw [h0]
        simp [List.count_singleton]

/-- All counter counts are positive. -/
theorem counter_pos (rs : List Nat) : ∀ p ∈ counter rs, 0 < p.2 := by
  intro p hp
  rw [counter_counts rs p hp]
  have hmem : p.1 ∈ rs := by
    rw [← mem_firstSeen, ← counter_keys]
    exact List.mem_map.mpr ⟨p, hp, rfl⟩
  rcases Nat.eq_zero_or_pos (rs.count p.1) with h0 | h
  · exact absurd hmem (List.count_eq_zero.mp h0)
  · exact h

theorem firstSeen_nodup (rs : List Nat) : (firstSeen rs).Nodup := by
  induction rs using List.reverseRecOn with
  | nil => simp [firstSeen]
  | append_singleton rs r ih =>
    rw [firstSeen_append]
    by_cases hm : r ∈ firstSeen rs
    · rw [if_pos hm]; exact ih
    · rw [if_neg hm]
      refine List.Nodup.append ih (List.nodup_singleton r) ?_
      intro a ha hb
      rw [List.mem_singleton] at hb
      subst hb
      exact hm ha

theorem counter_ne_nil (rs : List Nat) (hne : rs ≠ []) : counter rs ≠ [] := by
  intro hc
  obtain ⟨k, hk⟩ := List.exists_mem_of_ne_nil rs hne
  have : k ∈ (counter rs).map Prod.fst := by
    rw [counter_keys]
    exact (mem_firstSeen rs k).mpr hk
  rw [hc] at this
  exact absurd this (by simp)


theorem key_mem_rs (rs : List Nat) (p : Nat × Nat) (hp : p ∈ counter rs) :
    p.1 ∈ rs := by
  have hm : p.1 ∈ (counter rs).map Prod.fst := List.mem_map.mpr ⟨p, hp, rfl⟩
  rw [counter_keys] at hm
  exact (mem_firstSeen rs p.1).mp hm

theorem key_entry (rs : List Nat) (a : Nat) (ha : a ∈ rs) :
    ∃ p ∈ counter rs, p.1 = a := by
  have hm : a ∈ (counter rs).map Prod.fst := by
    rw [counter_keys]
    exact (mem_firstSeen rs a).mpr ha
  obtain ⟨p, hp, hpa⟩ := List.mem_map.mp hm
  exact ⟨p, hp, hpa⟩

theorem counts_le_iff (rs : List Nat) (v : Nat) :
    (∀ j ∈ rs, rs.count j ≤ v) ↔ ∀ p ∈ counter rs, p.2 ≤ v := by
  constructor
  · intro h p hp
    rw [counter_counts rs p hp]
    exact h p.1 (key_mem_rs rs p hp)
  · intro h j hj
    obtain ⟨p, hp, hpa⟩ := key_entry rs j hj
    have hc := counter_counts rs p hp
    rw [hpa] at hc
    rw [← hc]
    exact h p hp

/-- **C1.** For every non-empty response list, `calc_result` returns
`None` exactly when there is more than one distinct category and every
distinct category occurs the same number of times; otherwise it returns
the first category (in first-seen order) whose count reaches the
maximum; and `calc_result([A,A,B,B]) = None`,
`calc_result([A,A,B]) = A`, `calc_result([A]) = A`. -/
theorem calc_result_majority (rs : List Nat) (hne : rs ≠ []) :
    (calc_result rs = Option.none
      ↔ ((∃ a ∈ rs, ∃ b ∈ rs, a ≠ b)
          ∧ ∀ a ∈ rs, ∀ b ∈ rs, rs.count a = rs.count b))
    ∧ (¬((∃ a ∈ rs, ∃ b ∈ rs, a ≠ b)
          ∧ ∀ a ∈ rs, ∀ b ∈ rs, rs.count a = rs.count b) →
        calc_result rs = (firstSeen rs).find?
          (fun k => rs.all (fun j => decide (rs.count j ≤ rs.count k))))
    ∧ calc_result [0, 0, 1, 1] = Option.none
    ∧ calc_result [0, 0, 1] = some 0
    ∧ calc_result [0] = some 0 := by
  have hcne := counter_ne_nil rs hne
  have hposc := counter_pos rs
  have hfold := calc_fold (counter rs) hposc
    (decide ((counter rs).length ≠ 1))
  have hcr : calc_result rs
      = (if (decide ((counter rs).length ≠ 1) && allEqB (counter rs)) = true
         then Option.none
         else ((counter rs).find?
            (fun p => decide (lmax (counter rs) ≤ p.2))).map Prod.fst) := by
    simp only [calc_result]
    rw [hfold]
  have hd : (decide ((counter rs).length ≠ 1) = true)
      ↔ (∃ a ∈ rs, ∃ b ∈ rs, a ≠ b) := by
    rw [decide_eq_true_eq]
    constructor
    · intro hlen
      cases hc : counter rs with
      | nil => exact absurd hc hcne
      | cons p t =>
        cases t with
        | nil => rw [hc] at hlen; simp at hlen
        | cons q t2 =>
          have hnd : ((p :: q :: t2).map Prod.fst).Nodup := by
            rw [← hc, counter_keys]
            exact firstSeen_nodup rs
          have hpq : p.1 ≠ q.1 := by
            simp only [List.map_cons, List.nodup_cons, List.mem_cons] at hnd
            exact fun he => hnd.1 (Or.inl he)
          have hpm : p.1 ∈ rs :=
            key_mem_rs rs p (by rw [hc]; exact List.mem_cons_self p (q :: t2))
          have hqm : q.1 ∈ rs :=
            key_mem_rs rs q (by
              rw [hc]
              exact List.mem_cons_of_mem p (List.mem_cons_self q t2))
          exact ⟨p.1, hpm, q.1, hqm, hpq⟩
    · rintro ⟨a, ha, b, hb, hab⟩ hlen1
      obtain ⟨p, hp1⟩ := List.length_eq_one.mp hlen1
      have hka : a ∈ (counter rs).map Prod.fst := by
        rw [counter_keys]
        exact (mem_firstSeen rs a).mpr ha
      have hkb : b ∈ (counter rs).map Prod.fst := by
        rw [counter_keys]
        exact (mem_firstSeen rs b).mpr hb
      rw [hp1] at hka hkb
      simp only [List.map_cons, List.map_nil, List.mem_singleton] at hka hkb
      exact hab (hka.trans hkb.symm)
  have he : (allEqB (counter rs) = true)
      ↔ (∀ a ∈ rs, ∀ b ∈ rs, rs.count a = rs.count b) := by
    constructor
    · intro hall a ha b hb
      obtain ⟨pa, hpa, hpa1⟩ := key_entry rs a ha
      obtain ⟨pb, hpb, hpb1⟩ := key_entry rs b hb
      have h1 := List.all_eq_true.mp hall pa hpa
      have h2 := List.all_eq_true.mp hall pb hpb
      rw [decide_eq_true_eq] at h1 h2
      have hca := counter_counts rs pa hpa
      have hcb := counter_counts rs pb hpb
      rw [hpa1] at hca
      rw [hpb1] at hcb
      omega
    · intro hcnt
      rw [allEqB, List.all_eq_true]
      intro p hp
      rw [decide_eq_true_eq]
      obtain ⟨p0, t0, hc0⟩ : ∃ p0 t0, counter rs = p0 :: t0 := by
        cases hc : counter rs with
        | nil => exact absurd hc hcne
        | cons p0 t0 => exact ⟨p0, t0, rfl⟩
      have hh : headV (counter rs) = p0.2 := by rw [hc0]; simp [headV]
      have hp0 : p0 ∈ counter rs := by
        rw [hc0]
        exact List.mem_cons_self p0 t0
      rw [hh, counter_counts rs p hp, counter_counts rs p0 hp0]
      exact hcnt p.1 (key_mem_rs rs p hp) p0.1 (key_mem_rs rs p0 hp0)
  have hcond : ((decide ((counter rs).length ≠ 1) && allEqB (counter rs))
        = true)
      ↔ ((∃ a ∈ rs, ∃ b ∈ rs, a ≠ b)
          ∧ ∀ a ∈ rs, ∀ b ∈ rs, rs.count a = rs.count b) := by
    rw [Bool.and_eq_true, hd, he]
  have hwin_some : ((counter rs).find?
      (fun p => decide (lmax (counter rs) ≤ p.2))).isSome = true := by
    obtain ⟨p, hp, hpl⟩ := lmax_attained (counter rs) hcne hposc
    exact List.find?_isSome.mpr ⟨p, hp, by simp [hpl]⟩
  have hwin_eq : ((counter rs).find?
        (fun p => decide (lmax (counter rs) ≤ p.2))).map Prod.fst
      = (firstSeen rs).find?
          (fun k => rs.all (fun j => decide (rs.count j ≤ rs.count k))) := by
    rw [← counter_keys, List.find?_map]
    have hptw : ∀ p ∈ counter rs,
        ((fun k => rs.all (fun j => decide (rs.count j ≤ rs.count k)))
          ∘ Prod.fst) p
        = decide (lmax (counter rs) ≤ p.2) := by
      intro p hp
      have hpc : p.2 = rs.count p.1 := counter_counts rs p hp
      rw [Bool.eq_iff_iff]
      simp only [Function.comp_apply, List.all_eq_true, decide_eq_true_eq]
      rw [← hpc, lmax_le_iff]
      exact counts_le_iff rs p.2
    rw [find?_congr_mem _ _ _ hptw]
  refine ⟨?_, ?_, by decide, by decide, by decide⟩
  · rw [hcr]
    by_cases hc : (decide ((counter rs).length ≠ 1)
        && allEqB (counter rs)) = true
    · rw [if_pos hc]
      exact ⟨fun _ => hcond.mp hc, fun _ => rfl⟩
    · rw [if_neg hc]
      constructor
      · intro hnone
        obtain ⟨w, hw⟩ := Option.isSome_iff_exists.mp hwin_some
        rw [hw] at hnone
        exact absurd hnone (by simp)
      · intro htie
        exact absurd (hcond.mpr htie) hc
  · intro hnt
    rw [hcr, if_neg (fun hc => hnt (hcond.mp hc)), hwin_eq]

/-- Witness for C1: the spec examples, obtained from the main
theorem. -/
theorem calc_result_majority_witness :
    calc_result [0, 0, 1] = some 0
    ∧ calc_result [0, 0, 1, 1] = Option.none :=
  ⟨(calc_result_majority [0, 0, 1] (by decide)).2.2.2.1,
   ((calc_result_majority [0, 0, 1, 1] (by decide)).1).mpr (by decide)⟩


/-! ## C8: `wrap_text` and paragraph preservation -/

/-- Python `'\n'.join(lines)` (source line 276). -/
def joinNL : List (List Char) → List Char
  | [] => []
  | [l] => l
  | l :: ls => l ++ '\n' :: joinNL ls

/-- A line whose characters are all whitespace (Python
`line.strip() == ''`); with `drop_whitespace` these are exactly the
lines `textwrap.wrap` maps to `[]`. -/
def isBlankLine (l : List Char) : Bool := l.all (fun c => c.isWhitespace)

/-- Model of `wrap_text` (source lines 262-279), parameterised by the
standard-library call `textwrap.wrap(line, width=width,
drop_whitespace=not preserve_whitespace)`, which `wrapFn` stands for:
prefix the offset spaces, wrap each keepends line separately, join each
wrap result with newlines, restore the trailing newline of each input
line, and strip the offset prefix from the result. -/
def wrap_text (wrapFn : List Char → List (List Char))
    (first_line_offset : Nat) (text : List Char) : List Char :=
  let text2 := List.replicate first_line_offset ' ' ++ text
  let wrapped := (splitlinesKeepends text2).foldl (fun acc line =>
    let acc2 := acc ++ joinNL (wrapFn line)
    if line.getLast? = some '\n' then acc2 ++ ['\n'] else acc2) []
  wrapped.drop first_line_offset

/-- The piece of `wrap_text` output contributed by one input line. -/
def lineContrib (wrapFn : List Char → List (List Char))
    (line : List Char) : List Char :=
  joinNL (wrapFn line)
    ++ (if line.getLast? = some '\n' then ['\n'] else [])

theorem wrap_text_eq_flatten (wrapFn : List Char → List (List Char))
    (text : List Char) :
    wrap_text wrapFn 0 text
      = ((splitlinesKeepends text).map (lineContrib wrapFn)).flatten := by
  simp only [wrap_text, List.replicate, List.nil_append, List.drop_zero]
  rw [show (fun (acc : List Char) line =>
        if line.getLast? = some '\n'
        then (acc ++ joinNL (wrapFn line)) ++ ['\n']
        else acc ++ joinNL (wrapFn line))
      = (fun acc line => acc ++ lineContrib wrapFn line) from ?_]
  · exact foldl_append_eq_flatten_map _ _ []
  · funext acc line
    rw [lineContrib]
    by_cases h : line.getLast? = some '\n'
    · rw [if_pos h, if_pos h, List.append_assoc]
    · rw [if_neg h, if_neg h, List.append_nil]

theorem slkAux_cons_newline (cur rest : List Char) :
    slkAux cur ('\n' :: rest)
      = (cur.reverse ++ ['\n']) :: slkAux [] rest := by
  rw [slkAux, if_pos rfl]

theorem slkAux_cons_other (cur : List Char) (c : Char) (rest : List Char)
    (h : c ≠ '\n') : slkAux cur (c :: rest) = slkAux (c :: cur) rest := by
  rw [slkAux, if_neg h]

theorem slkAux_append_newline (A : List Char) :
    ∀ (cur : List Char), A ≠ [] → A.getLast? = some '\n' →
      ∀ B, slkAux cur (A ++ B) = slkAux cur A ++ slkAux [] B := by
  induction A with
  | nil => intro cur hA; exact absurd rfl hA
  | cons c A2 ih =>
    intro cur _ hlast B
    cases A2 with
    | nil =>
      have hc : c = '\n' := by simpa using hlast
      subst hc
      simp [slkAux]
    | cons d A3 =>
      have hlast2 : (d :: A3).getLast? = some '\n' := by
        simpa [List.getLast?] using hlast
      by_cases hc : c = '\n'
      · subst hc
        rw [List.cons_append, slkAux_cons_newline, slkAux_cons_newline]
        rw [ih [] (by simp) hlast2 B]
        simp
      · rw [List.cons_append, slkAux_cons_other _ _ _ hc,
          slkAux_cons_other _ _ _ hc]
        exact ih (c :: cur) (by simp) hlast2 B

theorem slk_append_newline (A B : List Char) (hA : A ≠ [])
    (hlast : A.getLast? = some '\n') :
    splitlinesKeepends (A ++ B)
      = splitlinesKeepends A ++ splitlinesKeepends B :=
  slkAux_append_newline A [] hA hlast B

theorem slk_flatten (chunks : List (List Char))
    (h : ∀ A ∈ chunks.dropLast, A.getLast? = some '\n') :
    splitlinesKeepends chunks.flatten
      = (chunks.map splitlinesKeepends).flatten := by
  induction chunks with
  | nil => rfl
  | cons A rest ih =>
    cases rest with
    | nil => simp
    | cons B rest2 =>
      have hA : A.getLast? = some '\n' := by
        apply h A
        rw [List.dropLast_cons₂]
        exact List.mem_cons_self A _
      have hAne : A ≠ [] := by
        intro h0
        rw [h0] at hA
        exact absurd hA (by simp)
      rw [List.flatten_cons, slk_append_newline A _ hAne hA]
      rw [ih (fun C hC => h C (by
        rw [List.dropLast_cons₂]
        exact List.mem_cons_of_mem A hC))]
      simp

theorem slk_dropLast_newline (s : List Char) :
    ∀ cur, ∀ l ∈ (slkAux cur s).dropLast, l.getLast? = some '\n' := by
  induction s with
  | nil =>
    intro cur l hl
    by_cases h : cur = [] <;> simp [slkAux, h] at hl
  | cons c rest ih =>
    intro cur l hl
    by_cases h : c = '\n'
    · subst h
      rw [slkAux_cons_newline] at hl
      cases hrest : slkAux [] rest with
      | nil => rw [hrest] at hl; simp at hl
      | cons x xs =>
        rw [hrest, List.dropLast_cons₂] at hl
        rcases List.mem_cons.mp hl with rfl | hl2
        · exact List.getLast?_concat _
        · have hrec := ih [] l
          rw [hrest] at hrec
          exact hrec hl2
    · rw [slkAux_cons_other _ _ _ h] at hl
      exact ih (c :: cur) l hl

theorem splitlinesKeepends_dropLast_newline (s : List Char) :
    ∀ l ∈ (splitlinesKeepends s).dropLast, l.getLast? = some '\n' :=
  fun l hl => slk_dropLast_newline s [] l hl


theorem slkAux_no_newline_concat (L : List Char) (hnl : ('\n') ∉ L) :
    ∀ cur, slkAux cur (L ++ ['\n']) = [cur.reverse ++ L ++ ['\n']] := by
  induction L with
  | nil =>
    intro cur
    rw [List.nil_append, slkAux_cons_newline]
    simp [slkAux]
  | cons c L2 ih =>
    intro cur
    have hc : c ≠ '\n' := fun h => hnl (h ▸ List.mem_cons_self c L2)
    have h2 : ('\n') ∉ L2 := fun h => hnl (List.mem_cons_of_mem c h)
    rw [List.cons_append, slkAux_cons_other _ _ _ hc, ih h2]
    simp

theorem slk_no_newline_concat (L : List Char) (hnl : ('\n') ∉ L) :
    splitlinesKeepends (L ++ ['\n']) = [L ++ ['\n']] := by
  have h := slkAux_no_newline_concat L hnl []
  simpa [splitlinesKeepends] using h

theorem isBlankLine_append (A B : List Char) :
    isBlankLine (A ++ B) = (isBlankLine A && isBlankLine B) := by
  simp [isBlankLine, List.all_append]

theorem isBlankLine_ne_nil (L : List Char) (h : isBlankLine L = false) :
    L ≠ [] := by
  intro h0
  rw [h0] at h
  simp [isBlankLine] at h

/-- The lines that splitting the newline-join of a nonempty list of
non-blank, newline-free pieces produces are all non-blank, and there is
at least one of them.  `t` is an optional trailing newline. -/
theorem slk_joinNL_nonblank (Ls : List (List Char)) (t : List Char)
    (ht : t = [] ∨ t = ['\n']) :
    Ls ≠ [] → (∀ L ∈ Ls, isBlankLine L = false ∧ ('\n') ∉ L) →
    splitlinesKeepends (joinNL Ls ++ t) ≠ []
    ∧ ∀ M ∈ splitlinesKeepends (joinNL Ls ++ t), isBlankLine M = false := by
  induction Ls with
  | nil => intro h; exact absurd rfl h
  | cons L rest ih =>
    intro _ hl
    have hLb : isBlankLine L = false := (hl L (List.mem_cons_self _ _)).1
    have hLn : ('\n') ∉ L := (hl L (List.mem_cons_self _ _)).2
    have hLne : L ≠ [] := isBlankLine_ne_nil L hLb
    cases rest with
    | nil =>
      rcases ht with rfl | rfl
      · rw [show joinNL [L] = L from rfl, List.append_nil,
          splitlinesKeepends_single L hLn hLne]
        refine ⟨by simp, ?_⟩
        intro M hM
        rw [List.mem_singleton] at hM
        subst hM
        exact hLb
      · rw [show joinNL [L] = L from rfl, slk_no_newline_concat L hLn]
        refine ⟨by simp, ?_⟩
        intro M hM
        rw [List.mem_singleton] at hM
        subst hM
        rw [isBlankLine_append, hLb]
        simp
    | cons L2 rest2 =>
      have hjoin : joinNL (L :: L2 :: rest2)
          = (L ++ ['\n']) ++ joinNL (L2 :: rest2) := by
        show L ++ '\n' :: joinNL (L2 :: rest2) = _
        simp
      rw [hjoin, List.append_assoc,
        slk_append_newline (L ++ ['\n']) _ (by simp) (List.getLast?_concat L),
        slk_no_newline_concat L hLn]
      obtain ⟨hne2, hblk2⟩ :=
        ih (by simp) (fun M hM => hl M (List.mem_cons_of_mem L hM))
      refine ⟨by simp, ?_⟩
      intro M hM
      rcases List.mem_append.mp hM with hM1 | hM2
      · rw [List.mem_singleton] at hM1
        subst hM1
        rw [isBlankLine_append, hLb]
        simp
      · exact hblk2 M hM2

/-- One step of the paragraph count over blank-flags: a blank line ends
the current run; a non-blank line opens one if none is open. -/
def pcStep (st : Nat × Bool) (b : Bool) : Nat × Bool :=
  if b then (st.1, false) else if st.2 then st else (st.1 + 1, true)

/-- Paragraph-count fold (count of maximal non-blank runs, with the
"inside a run" flag). -/
def pcCount (s : Nat × Bool) (bs : List Bool) : Nat × Bool := bs.foldl pcStep s

/-- Number of paragraphs of a text: maximal runs of non-blank lines. -/
def paragraphCount (text : List Char) : Nat :=
  (pcCount (0, false) ((splitlinesKeepends text).map isBlankLine)).1

theorem pcCount_append (s : Nat × Bool) (xs ys : List Bool) :
    pcCount s (xs ++ ys) = pcCount (pcCount s xs) ys := by
  simp [pcCount, List.foldl_append]

theorem pcStep_idem (s : Nat × Bool) (b : Bool) :
    pcStep (pcStep s b) b = pcStep s b := by
  rcases s with ⟨n, i⟩
  cases b <;> cases i <;> simp [pcStep]

theorem pcCount_const_run (b : Bool) (bs : List Bool)
    (h : ∀ x ∈ bs, x = b) (hne : bs ≠ []) :
    ∀ s, pcCount s bs = pcStep s b := by
  induction bs with
  | nil => exact absurd rfl hne
  | cons x rest ih =>
    intro s
    have hx : x = b := h x (List.mem_cons_self _ _)
    subst hx
    cases rest with
    | nil => simp [pcCount]
    | cons y rest2 =>
      have hstep : pcCount s (x :: y :: rest2)
          = pcCount (pcStep s x) (y :: rest2) := by
        simp [pcCount]
      rw [hstep,
        ih (fun z hz => h z (List.mem_cons_of_mem x hz)) (by simp),
        pcStep_idem]

/-- Replacing every flag by a homogeneous nonempty run of the same flag
(the last run may be empty if its flag is blank) leaves the paragraph
count unchanged. -/
theorem pcCount_blocks (ps : List (Bool × List Bool)) :
    ∀ s, (∀ p ∈ ps, ∀ x ∈ p.2, x = p.1) →
      (∀ p ∈ ps.dropLast, p.2 ≠ []) →
      (∀ p, ps.getLast? = some p → p.2 = [] → p.1 = true) →
      (pcCount s (ps.map Prod.snd).flatten).1
        = (pcCount s (ps.map Prod.fst)).1 := by
  induction ps with
  | nil => intro s _ _ _; rfl
  | cons p rest ih =>
    intro s h1 h2 h3
    rw [List.map_cons, List.map_cons, List.flatten_cons, pcCount_append]
    rw [show pcCount s (p.1 :: rest.map Prod.fst)
        = pcCount (pcStep s p.1) (rest.map Prod.fst) from by simp [pcCount]]
    cases rest with
    | nil =>
      by_cases hp2 : p.2 = []
      · have hb : p.1 = true := h3 p (by simp) hp2
        rw [hp2, hb]
        simp [pcCount, pcStep]
      · rw [pcCount_const_run p.1 p.2 (h1 p (List.mem_cons_self _ _)) hp2 s]
        simp [pcCount]
    | cons q rest2 =>
      have hp2 : p.2 ≠ [] := h2 p (by
        rw [List.dropLast_cons₂]
        exact List.mem_cons_self _ _)
      rw [pcCount_const_run p.1 p.2 (h1 p (List.mem_cons_self _ _)) hp2 s]
      exact ih (pcStep s p.1)
        (fun p2 hp => h1 p2 (List.mem_cons_of_mem _ hp))
        (fun p2 hp => h2 p2 (by
          rw [List.dropLast_cons₂]
          exact List.mem_cons_of_mem _ hp))
        (fun p2 hp => h3 p2 (by
          rw [List.getLast?_cons_cons]
          exact hp))


/-- **C8.** `wrap_text` (at offset 0) preserves the paragraph structure
for any model of `textwrap.wrap` with the documented behaviour at
positive width and `drop_whitespace`: a whitespace-only line wraps to
`[]` and any other line wraps to a nonempty list of non-blank,
newline-free lines.  Under these hypotheses the number of paragraphs
(maximal runs of non-blank lines, whitespace-collapsed) of the wrapped
text equals that of the input. -/
theorem wrap_text_preserves_paragraphs
    (wrapFn : List Char → List (List Char)) (text : List Char)
    (hempty : ∀ l, wrapFn l = [] ↔ isBlankLine l = true)
    (hgood : ∀ l L, L ∈ wrapFn l → isBlankLine L = false ∧ ('\n') ∉ L) :
    paragraphCount (wrap_text wrapFn 0 text) = paragraphCount text := by
  have hcontrib_end : ∀ line ∈ (splitlinesKeepends text).dropLast,
      (lineContrib wrapFn line).getLast? = some '\n' := by
    intro line hline
    have hend := splitlinesKeepends_dropLast_newline text line hline
    rw [lineContrib, if_pos hend]
    exact List.getLast?_concat _
  have hout : splitlinesKeepends (wrap_text wrapFn 0 text)
      = ((splitlinesKeepends text).map
          (fun line => splitlinesKeepends (lineContrib wrapFn line))).flatten := by
    rw [wrap_text_eq_flatten]
    rw [slk_flatten _ (by
      intro A hA
      rw [← List.map_dropLast] at hA
      obtain ⟨line, hline, rfl⟩ := List.mem_map.mp hA
      exact hcontrib_end line hline)]
    rw [List.map_map]
    rfl
  have hblock : ∀ line ∈ splitlinesKeepends text,
      (∀ b ∈ (splitlinesKeepends (lineContrib wrapFn line)).map isBlankLine,
          b = isBlankLine line)
      ∧ (isBlankLine line = false →
          splitlinesKeepends (lineContrib wrapFn line) ≠ [])
      ∧ (line.getLast? = some '\n' →
          splitlinesKeepends (lineContrib wrapFn line) ≠ []) := by
    intro line _
    by_cases hb : isBlankLine line = true
    · have hw : wrapFn line = [] := (hempty line).mpr hb
      rw [lineContrib, hw, show joinNL [] = [] from rfl, List.nil_append]
      by_cases hend : line.getLast? = some '\n'
      · rw [if_pos hend]
        rw [show splitlinesKeepends ['\n'] = [['\n']] from by decide]
        refine ⟨?_, fun hf => absurd hb (by simp [hf]), fun _ => by simp⟩
        intro b hbm
        rw [show ([['\n']] : List (List Char)).map isBlankLine
            = [true] from by decide] at hbm
        rw [List.mem_singleton] at hbm
        rw [hbm, hb]
      · rw [if_neg hend]
        rw [show splitlinesKeepends [] = [] from rfl]
        exact ⟨fun b hbm => absurd hbm (by simp),
          fun hf => absurd hb (by simp [hf]),
          fun hf => absurd hf hend⟩
    · have hbf : isBlankLine line = false := by
        cases hx : isBlankLine line
        · rfl
        · exact absurd hx hb
      have hw : wrapFn line ≠ [] := fun h0 => hb ((hempty line).mp h0)
      have hl : ∀ L ∈ wrapFn line, isBlankLine L = false ∧ ('\n') ∉ L :=
        fun L hL => hgood line L hL
      rw [lineContrib]
      by_cases hend : line.getLast? = some '\n'
      · rw [if_pos hend]
        obtain ⟨hne, hblk⟩ :=
          slk_joinNL_nonblank (wrapFn line) ['\n'] (Or.inr rfl) hw hl
        refine ⟨?_, fun _ => hne, fun _ => hne⟩
        intro b hbm
        obtain ⟨M, hM, rfl⟩ := List.mem_map.mp hbm
        rw [hblk M hM, hbf]
      · rw [if_neg hend]
        obtain ⟨hne, hblk⟩ :=
          slk_joinNL_nonblank (wrapFn line) [] (Or.inl rfl) hw hl
        refine ⟨?_, fun _ => hne, fun _ => hne⟩
        intro b hbm
        obtain ⟨M, hM, rfl⟩ := List.mem_map.mp hbm
        rw [hblk M hM, hbf]
  have hps := pcCount_blocks ((splitlinesKeepends text).map (fun line =>
      (isBlankLine line,
        (splitlinesKeepends (lineContrib wrapFn line)).map isBlankLine)))
    (0, false)
    (by
      intro p hp x hx
      obtain ⟨line, hline, rfl⟩ := List.mem_map.mp hp
      exact (hblock line hline).1 x hx)
    (by
      intro p hp
      rw [← List.map_dropLast] at hp
      obtain ⟨line, hline, rfl⟩ := List.mem_map.mp hp
      have hmem : line ∈ splitlinesKeepends text :=
        List.Sublist.mem hline (List.dropLast_sublist _)
      have hend := splitlinesKeepends_dropLast_newline text line hline
      intro h0
      exact absurd h0 (by
        simp only [ne_eq, List.map_eq_nil_iff]
        exact (hblock line hmem).2.2 hend)
    )
    (by
      intro p hp h0
      have hpm : p ∈ (splitlinesKeepends text).map (fun line =>
          (isBlankLine line,
            (splitlinesKeepends (lineContrib wrapFn line)).map isBlankLine)) :=
        List.mem_of_mem_getLast? hp
      obtain ⟨line, hline, rfl⟩ := List.mem_map.mp hpm
      by_cases hb : isBlankLine line = true
      · exact hb
      · have hbf : isBlankLine line = false := by
          cases hx : isBlankLine line
          · rfl
          · exact absurd hx hb
        have := (hblock line hline).2.1 hbf
        rw [List.map_eq_nil_iff] at h0
        exact absurd h0 this)
  rw [paragraphCount, paragraphCount, hout, List.map_flatten, List.map_map]
  rw [show (List.map isBlankLine ∘ fun line =>
        splitlinesKeepends (lineContrib wrapFn line))
      = (Prod.snd ∘ fun line =>
          ((isBlankLine line : Bool),
            (splitlinesKeepends (lineContrib wrapFn line)).map isBlankLine))
      from rfl]
  rw [← List.map_map]
  rw [show (splitlinesKeepends text).map isBlankLine
      = ((splitlinesKeepends text).map (fun line =>
          ((isBlankLine line : Bool),
            (splitlinesKeepends (lineContrib wrapFn line)).map isBlankLine))).map
        Prod.fst from by rw [List.map_map]; rfl]
  exact hps


/-- A minimal instance of the `textwrap.wrap` contract, used by the C8
witness: a whitespace-only line wraps to `[]`, any other line to the
single line consisting of its non-newline characters. -/
def simpleWrap (l : List Char) : List (List Char) :=
  if isBlankLine l then [] else [l.filter (fun c => decide (c ≠ '\n'))]

theorem simpleWrap_empty (l : List Char) :
    simpleWrap l = [] ↔ isBlankLine l = true := by
  rw [simpleWrap]
  by_cases h : isBlankLine l = true
  · simp [h]
  · simp [h]

theorem simpleWrap_good (l L : List Char) (hL : L ∈ simpleWrap l) :
    isBlankLine L = false ∧ ('\n') ∉ L := by
  rw [simpleWrap] at hL
  by_cases h : isBlankLine l = true
  · rw [if_pos h] at hL
    exact absurd hL (by simp)
  · rw [if_neg h] at hL
    rw [List.mem_singleton] at hL
    subst hL
    obtain ⟨c, hc, hcw⟩ : ∃ c ∈ l, ¬ c.isWhitespace = true := by
      by_contra hno
      push_neg at hno
      exact h (List.all_eq_true.mpr (fun c hc => hno c hc))
    have hcn : c ≠ '\n' := fun he => hcw (by rw [he]; decide)
    have hcf : c ∈ l.filter (fun c => decide (c ≠ '\n')) :=
      List.mem_filter.mpr ⟨hc, by simp [hcn]⟩
    constructor
    · by_contra hbt
      have hbt2 : isBlankLine (l.filter (fun c => decide (c ≠ '\n')))
          = true := by
        cases hx : isBlankLine (l.filter (fun c => decide (c ≠ '\n')))
        · exact absurd hx hbt
        · rfl
      exact hcw (List.all_eq_true.mp hbt2 c hcf)
    · intro hmem
      have hf := (List.mem_filter.mp hmem).2
      simp at hf

/-- Witness for C8: the two-paragraph text `ab`, blank line, `cd`,
wrapped with a concrete wrap function satisfying the `textwrap.wrap`
contract, keeps its 2 paragraphs. -/
theorem wrap_text_preserves_paragraphs_witness :
    paragraphCount (wrap_text simpleWrap 0 ("ab\n\ncd".toList))
      = paragraphCount ("ab\n\ncd".toList)
    ∧ paragraphCount ("ab\n\ncd".toList) = 2 :=
  ⟨wrap_text_preserves_paragraphs simpleWrap ("ab\n\ncd".toList)
      simpleWrap_empty simpleWrap_good,
   by decide⟩

end AsciiGames
